import Mathlib

/-!
Verification of the secrets-manager core (crypto envelope, project store,
project entity) against its specification.  Rust strings are embedded as
lists of their UTF-8 byte values (`List Nat`, each value < 256); byte
buffers likewise.  The external cryptographic primitives (PBKDF2, AES-GCM,
the OS RNG) and serde serialization are modelled from the spec as ideal,
executable functions; everything else is translated directly from the
source files `crypto.rs`, `storage.rs` and `models.rs`.
-/

namespace SecretsManager

/-- A valid byte string: every element is an 8-bit value. -/
def ValidBytes (bs : List Nat) : Prop := ∀ b ∈ bs, b < 256

instance (bs : List Nat) : Decidable (ValidBytes bs) :=
  inferInstanceAs (Decidable (∀ b ∈ bs, b < 256))

/-- Split a list at the first occurrence of `sep`: returns the part before
and the part after, or `none` when `sep` does not occur. -/
def splitAtSep {α : Type} [DecidableEq α] (sep : α) : List α → Option (List α × List α)
  | [] => none
  | x :: rest =>
    if x = sep then some ([], rest)
    else
      match splitAtSep sep rest with
      | some (a, b) => some (x :: a, b)
      | none => none

theorem splitAtSep_append {α : Type} [DecidableEq α] (sep : α) (a b : List α)
    (ha : ∀ x ∈ a, x ≠ sep) : splitAtSep sep (a ++ sep :: b) = some (a, b) := by
  induction a with
  | nil => simp [splitAtSep]
  | cons x rest ih =>
    have hx : x ≠ sep := ha x (by simp)
    simp only [List.cons_append, splitAtSep, if_neg hx]
    rw [show rest.append (sep :: b) = rest ++ sep :: b from rfl,
      ih (fun y hy => ha y (by simp [hy]))]

/-- Nibble encoding: each byte becomes its two hexadecimal digits
(values < 16).  Used by the ideal-cipher and serialization models to embed
arbitrary byte strings into streams that avoid the separator values. -/
def nib : List Nat → List Nat
  | [] => []
  | b :: rest => b / 16 :: b % 16 :: nib rest

/-- Inverse of `nib`, validating that every digit is < 16. -/
def denib : List Nat → Option (List Nat)
  | [] => some []
  | h :: l :: rest =>
    if h < 16 ∧ l < 16 then
      match denib rest with
      | some t => some ((h * 16 + l) :: t)
      | none => none
    else none
  | _ => none

theorem denib_nib (bs : List Nat) (h : ValidBytes bs) : denib (nib bs) = some bs := by
  induction bs with
  | nil => rfl
  | cons b rest ih =>
    have hb : b < 256 := h b (by simp)
    have h1 : b / 16 < 16 := by omega
    have h2 : b % 16 < 16 := by omega
    have hrest : ValidBytes rest := fun x hx => h x (by simp [hx])
    have hb16 : b / 16 * 16 + b % 16 = b := by omega
    simp only [nib, denib, if_pos (And.intro h1 h2), ih hrest, hb16]

theorem nib_lt_16 (bs : List Nat) (h : ValidBytes bs) : ∀ x ∈ nib bs, x < 16 := by
  induction bs with
  | nil => intro x hx; cases hx
  | cons b rest ih =>
    intro x hx
    have hb : b < 256 := h b (by simp)
    have hrest : ValidBytes rest := fun y hy => h y (by simp [hy])
    simp only [nib, List.mem_cons] at hx
    rcases hx with rfl | hx
    · omega
    rcases hx with rfl | hx
    · omega
    · exact ih hrest x hx

/-- Little-endian base-16 digit expansion of a natural number (empty for 0),
written with explicit fuel so that it is structurally recursive. -/
def natNibFuel : Nat → Nat → List Nat
  | 0, _ => []
  | fuel + 1, n => if n = 0 then [] else n % 16 :: natNibFuel fuel (n / 16)

def natNib (n : Nat) : List Nat := natNibFuel n n

/-- Inverse of `natNib`, validating digits. -/
def denat : List Nat → Option Nat
  | [] => some 0
  | d :: rest =>
    if d < 16 then
      match denat rest with
      | some m => some (d + 16 * m)
      | none => none
    else none

theorem denat_natNibFuel (fuel : Nat) : ∀ n, n ≤ fuel → denat (natNibFuel fuel n) = some n := by
  induction fuel with
  | zero =>
    intro n hn
    have hz : n = 0 := by omega
    subst hz; rfl
  | succ f ih =>
    intro n hn
    by_cases h0 : n = 0
    · simp [natNibFuel, h0, denat]
    · have hdiv : n / 16 ≤ f := by omega
      have hmod : n % 16 < 16 := by omega
      have hsum : n % 16 + 16 * (n / 16) = n := by omega
      simp only [natNibFuel, if_neg h0, denat, if_pos hmod, ih (n / 16) hdiv, hsum]

theorem denat_natNib (n : Nat) : denat (natNib n) = some n :=
  denat_natNibFuel n n (Nat.le_refl n)

theorem natNibFuel_lt_16 (fuel : Nat) : ∀ n, ∀ x ∈ natNibFuel fuel n, x < 16 := by
  induction fuel with
  | zero => intro n x hx; cases hx
  | succ f ih =>
    intro n x hx
    by_cases h0 : n = 0
    · simp [natNibFuel, h0] at hx
    · simp only [natNibFuel, if_neg h0, List.mem_cons] at hx
      rcases hx with rfl | hx
      · exact Nat.mod_lt n (by omega)
      · exact ih (n / 16) x hx

theorem natNib_lt_16 (n : Nat) : ∀ x ∈ natNib n, x < 16 :=
  natNibFuel_lt_16 n n

/-! ## Base64 (standard alphabet, RFC 4648, with padding)

The source uses `base64::engine::general_purpose::STANDARD` to encode the
salt, the nonce and the ciphertext of the envelope, and to decode them in
`decrypt_project`.  This implements the same encoding over byte lists,
producing the character list of the base64 text. -/

def b64Alphabet : List Char :=
  [ 'A', 'B', 'C', 'D', 'E', 'F', 'G', 'H', 'I', 'J', 'K', 'L', 'M',
    'N', 'O', 'P', 'Q', 'R', 'S', 'T', 'U', 'V', 'W', 'X', 'Y', 'Z',
    'a', 'b', 'c', 'd', 'e', 'f', 'g', 'h', 'i', 'j', 'k', 'l', 'm',
    'n', 'o', 'p', 'q', 'r', 's', 't', 'u', 'v', 'w', 'x', 'y', 'z',
    '0', '1', '2', '3', '4', '5', '6', '7', '8', '9', '+', '/' ]

/-- Character for a sextet value (< 64). -/
def b64Char (v : Nat) : Char := b64Alphabet.getD v '='

/-- Sextet value of a base64 character, `none` for characters outside the
alphabet (padding included). -/
def b64Val (c : Char) : Option Nat :=
  let i := b64Alphabet.indexOf c
  if i < 64 then some i else none

/-- Encode a byte list as base64 text. -/
def b64EncodeBytes : List Nat → List Char
  | [] => []
  | [b0] => [b64Char (b0 / 4), b64Char (b0 % 4 * 16), '=', '=']
  | [b0, b1] =>
      [b64Char (b0 / 4), b64Char (b0 % 4 * 16 + b1 / 16), b64Char (b1 % 16 * 4), '=']
  | b0 :: b1 :: b2 :: rest =>
      b64Char (b0 / 4) :: b64Char (b0 % 4 * 16 + b1 / 16) ::
      b64Char (b1 % 16 * 4 + b2 / 64) :: b64Char (b2 % 64) :: b64EncodeBytes rest

/-- Decode the final (possibly padded) four-character block. -/
def b64DecodeFinal (c0 c1 c2 c3 : Char) : Option (List Nat) :=
  if c2 = '=' ∧ c3 = '=' then
    (b64Val c0).bind fun v0 => (b64Val c1).bind fun v1 =>
      if v1 % 16 = 0 then some [v0 * 4 + v1 / 16] else none
  else if c3 = '=' then
    (b64Val c0).bind fun v0 => (b64Val c1).bind fun v1 => (b64Val c2).bind fun v2 =>
      if v2 % 4 = 0 then some [v0 * 4 + v1 / 16, v1 % 16 * 16 + v2 / 4] else none
  else
    (b64Val c0).bind fun v0 => (b64Val c1).bind fun v1 => (b64Val c2).bind fun v2 =>
      (b64Val c3).bind fun v3 =>
        some [v0 * 4 + v1 / 16, v1 % 16 * 16 + v2 / 4, v2 % 4 * 64 + v3]

/-- Decode base64 text back to bytes; `none` on any malformed input
(bad length, character outside the alphabet, padding mid-stream or
non-canonical padding bits). -/
def b64DecodeBytes : List Char → Option (List Nat)
  | [] => some []
  | c0 :: c1 :: c2 :: c3 :: rest =>
    if rest = [] then b64DecodeFinal c0 c1 c2 c3
    else
      (b64Val c0).bind fun v0 => (b64Val c1).bind fun v1 => (b64Val c2).bind fun v2 =>
        (b64Val c3).bind fun v3 => (b64DecodeBytes rest).bind fun tail =>
          some ((v0 * 4 + v1 / 16) :: (v1 % 16 * 16 + v2 / 4) :: (v2 % 4 * 64 + v3) :: tail)
  | _ => none

theorem b64Val_b64Char_fin : ∀ v : Fin 64, b64Val (b64Char v.val) = some v.val := by decide

theorem b64Char_ne_pad_fin : ∀ v : Fin 64, b64Char v.val ≠ '=' := by decide

theorem b64Char_ne_pipe_fin : ∀ v : Fin 64, b64Char v.val ≠ '|' := by decide

theorem b64Val_b64Char (v : Nat) (h : v < 64) : b64Val (b64Char v) = some v :=
  b64Val_b64Char_fin ⟨v, h⟩

theorem b64Char_ne_pad (v : Nat) (h : v < 64) : b64Char v ≠ '=' :=
  b64Char_ne_pad_fin ⟨v, h⟩

theorem b64Char_ne_pipe (v : Nat) : b64Char v ≠ '|' := by
  by_cases h : v < 64
  · exact b64Char_ne_pipe_fin ⟨v, h⟩
  · have : b64Char v = '=' := by
      unfold b64Char
      apply List.getD_eq_default
      simp only [b64Alphabet, List.length]
      omega
    rw [this]
    decide

theorem b64EncodeBytes_ne_pipe (bs : List Nat) : '|' ∉ b64EncodeBytes bs := by
  induction bs using b64EncodeBytes.induct with
  | case1 => simp [b64EncodeBytes]
  | case2 b0 =>
    simp only [b64EncodeBytes, List.mem_cons, List.not_mem_nil, or_false]
    push_neg
    refine ⟨?_, ?_, ?_, ?_⟩ <;> first | (intro hc; exact b64Char_ne_pipe _ hc.symm) | decide
  | case3 b0 b1 =>
    simp only [b64EncodeBytes, List.mem_cons, List.not_mem_nil, or_false]
    push_neg
    refine ⟨?_, ?_, ?_, ?_⟩ <;> first | (intro hc; exact b64Char_ne_pipe _ hc.symm) | decide
  | case4 b0 b1 b2 rest ih =>
    simp only [b64EncodeBytes, List.mem_cons]
    push_neg
    refine ⟨?_, ?_, ?_, ?_, ih⟩ <;> (intro hc; exact b64Char_ne_pipe _ hc.symm)

theorem b64EncodeBytes_ne_nil (bs : List Nat) (h : bs ≠ []) : b64EncodeBytes bs ≠ [] := by
  match bs with
  | [] => exact absurd rfl h
  | [b0] => simp [b64EncodeBytes]
  | [b0, b1] => simp [b64EncodeBytes]
  | b0 :: b1 :: b2 :: rest => simp [b64EncodeBytes]

theorem b64DecodeBytes_four (c0 c1 c2 c3 : Char) :
    b64DecodeBytes [c0, c1, c2, c3] = b64DecodeFinal c0 c1 c2 c3 := rfl

theorem b64DecodeBytes_cons (c0 c1 c2 c3 : Char) (rest : List Char) (h : rest ≠ []) :
    b64DecodeBytes (c0 :: c1 :: c2 :: c3 :: rest) =
      ((b64Val c0).bind fun v0 => (b64Val c1).bind fun v1 => (b64Val c2).bind fun v2 =>
        (b64Val c3).bind fun v3 => (b64DecodeBytes rest).bind fun tail =>
          some ((v0 * 4 + v1 / 16) :: (v1 % 16 * 16 + v2 / 4) :: (v2 % 4 * 64 + v3) :: tail)) := by
  have hstep : b64DecodeBytes (c0 :: c1 :: c2 :: c3 :: rest) =
      if rest = [] then b64DecodeFinal c0 c1 c2 c3
      else
        ((b64Val c0).bind fun v0 => (b64Val c1).bind fun v1 => (b64Val c2).bind fun v2 =>
          (b64Val c3).bind fun v3 => (b64DecodeBytes rest).bind fun tail =>
            some ((v0 * 4 + v1 / 16) :: (v1 % 16 * 16 + v2 / 4) :: (v2 % 4 * 64 + v3) :: tail)) :=
    rfl
  rw [hstep, if_neg h]

theorem b64_decode_encode (bs : List Nat) (h : ValidBytes bs) :
    b64DecodeBytes (b64EncodeBytes bs) = some bs := by
  induction bs using b64EncodeBytes.induct with
  | case1 => rfl
  | case2 b0 =>
    have hb0 : b0 < 256 := h b0 (by simp)
    have h1 : b0 / 4 < 64 := by omega
    have h2 : b0 % 4 * 16 < 64 := by omega
    have hmod : b0 % 4 * 16 % 16 = 0 := by omega
    show b64DecodeBytes [b64Char (b0 / 4), b64Char (b0 % 4 * 16), '=', '='] = some [b0]
    rw [b64DecodeBytes_four]
    unfold b64DecodeFinal
    rw [if_pos (And.intro rfl rfl), b64Val_b64Char _ h1, b64Val_b64Char _ h2,
      Option.some_bind, Option.some_bind, if_pos hmod]
    simp only [Option.some.injEq, List.cons.injEq, and_true]
    omega
  | case3 b0 b1 =>
    have hb0 : b0 < 256 := h b0 (by simp)
    have hb1 : b1 < 256 := h b1 (by simp)
    have h1 : b0 / 4 < 64 := by omega
    have h2 : b0 % 4 * 16 + b1 / 16 < 64 := by omega
    have h3 : b1 % 16 * 4 < 64 := by omega
    have hne : b64Char (b1 % 16 * 4) ≠ '=' := b64Char_ne_pad _ h3
    have hmod : b1 % 16 * 4 % 4 = 0 := by omega
    show b64DecodeBytes
        [b64Char (b0 / 4), b64Char (b0 % 4 * 16 + b1 / 16), b64Char (b1 % 16 * 4), '='] =
      some [b0, b1]
    rw [b64DecodeBytes_four]
    unfold b64DecodeFinal
    have hcond1 : ¬(b64Char (b1 % 16 * 4) = '=' ∧ ('=' : Char) = '=') := fun hc => hne hc.1
    rw [if_neg hcond1, if_pos rfl, b64Val_b64Char _ h1, b64Val_b64Char _ h2,
      b64Val_b64Char _ h3, Option.some_bind, Option.some_bind, Option.some_bind, if_pos hmod]
    simp only [Option.some.injEq, List.cons.injEq, and_true]
    omega
  | case4 b0 b1 b2 rest ih =>
    have hb0 : b0 < 256 := h b0 (by simp)
    have hb1 : b1 < 256 := h b1 (by simp)
    have hb2 : b2 < 256 := h b2 (by simp)
    have hrest : ValidBytes rest := fun x hx => h x (by simp [hx])
    have h1 : b0 / 4 < 64 := by omega
    have h2 : b0 % 4 * 16 + b1 / 16 < 64 := by omega
    have h3 : b1 % 16 * 4 + b2 / 64 < 64 := by omega
    have h4 : b2 % 64 < 64 := by omega
    by_cases hre : rest = []
    · subst hre
      have hne3 : b64Char (b1 % 16 * 4 + b2 / 64) ≠ '=' := b64Char_ne_pad _ h3
      have hne4 : b64Char (b2 % 64) ≠ '=' := b64Char_ne_pad _ h4
      show b64DecodeBytes
          [b64Char (b0 / 4), b64Char (b0 % 4 * 16 + b1 / 16),
            b64Char (b1 % 16 * 4 + b2 / 64), b64Char (b2 % 64)] =
        some [b0, b1, b2]
      rw [b64DecodeBytes_four]
      unfold b64DecodeFinal
      have hcond1 : ¬(b64Char (b1 % 16 * 4 + b2 / 64) = '=' ∧ b64Char (b2 % 64) = '=') :=
        fun hc => hne3 hc.1
      rw [if_neg hcond1, if_neg hne4, b64Val_b64Char _ h1, b64Val_b64Char _ h2,
        b64Val_b64Char _ h3, b64Val_b64Char _ h4,
        Option.some_bind, Option.some_bind, Option.some_bind, Option.some_bind]
      simp only [Option.some.injEq, List.cons.injEq, and_true]
      omega
    · have henc : b64EncodeBytes rest ≠ [] := b64EncodeBytes_ne_nil rest hre
      show b64DecodeBytes
          (b64Char (b0 / 4) :: b64Char (b0 % 4 * 16 + b1 / 16) ::
            b64Char (b1 % 16 * 4 + b2 / 64) :: b64Char (b2 % 64) :: b64EncodeBytes rest) =
        some (b0 :: b1 :: b2 :: rest)
      rw [b64DecodeBytes_cons _ _ _ _ _ henc, b64Val_b64Char _ h1, b64Val_b64Char _ h2,
        b64Val_b64Char _ h3, b64Val_b64Char _ h4, ih hrest,
        Option.some_bind, Option.some_bind, Option.some_bind, Option.some_bind,
        Option.some_bind]
      simp only [Option.some.injEq, List.cons.injEq, and_true]
      omega

/-- Base64 encoding is injective on valid byte strings. -/
theorem b64EncodeBytes_injective (bs1 bs2 : List Nat)
    (h1 : ValidBytes bs1) (h2 : ValidBytes bs2)
    (heq : b64EncodeBytes bs1 = b64EncodeBytes bs2) : bs1 = bs2 := by
  have e1 := b64_decode_encode bs1 h1
  have e2 := b64_decode_encode bs2 h2
  rw [heq, e2] at e1
  exact (Option.some.injEq _ _).mp e1.symm

/-! ## Project entity (`models.rs`)

`Project` carries a name, a map of secrets and two UTC timestamps.  The
`HashMap<String, String>` is embedded as an association list with unique
keys (iteration order is irrelevant to the spec); `DateTime<Utc>` is
embedded as a natural number of time units; `chrono::Utc::now()` becomes
an explicit `now` argument supplied by the (monotone) clock. -/

structure Project where
  name : List Nat
  secrets : List (List Nat × List Nat)
  created_at : Nat
  updated_at : Nat
deriving DecidableEq

/-- A project whose strings are all valid byte strings. -/
def ValidProject (p : Project) : Prop :=
  ValidBytes p.name ∧ ∀ kv ∈ p.secrets, ValidBytes kv.1 ∧ ValidBytes kv.2

instance (p : Project) : Decidable (ValidProject p) :=
  inferInstanceAs (Decidable (_ ∧ ∀ kv ∈ p.secrets, _ ∧ _))

/-- `Project::new`: both timestamps set to the same `now`, empty secrets. -/
def Project.new (name : List Nat) (now : Nat) : Project :=
  ⟨name, [], now, now⟩

/-- `HashMap::insert`: replaces the value when the key is present. -/
def insertSecret : List (List Nat × List Nat) → List Nat → List Nat →
    List (List Nat × List Nat)
  | [], key, value => [(key, value)]
  | (k, v) :: rest, key, value =>
    if k = key then (key, value) :: rest else (k, v) :: insertSecret rest key value

/-- `HashMap::get`: value stored under the key, if any. -/
def lookupSecret (secrets : List (List Nat × List Nat)) (key : List Nat) :
    Option (List Nat) :=
  match secrets.find? (fun kv => kv.1 == key) with
  | some kv => some kv.2
  | none => none

/-- `HashMap::remove`: drop the entry stored under the key. -/
def eraseSecret : List (List Nat × List Nat) → List Nat → List (List Nat × List Nat)
  | [], _ => []
  | (k, v) :: rest, key => if k = key then rest else (k, v) :: eraseSecret rest key

/-- `Project::add_secret`: inserts and bumps `updated_at`. -/
def Project.add_secret (p : Project) (key value : List Nat) (now : Nat) : Project :=
  { p with secrets := insertSecret p.secrets key value, updated_at := now }

/-- `Project::remove_secret`: removes the entry and returns the previous
value; `updated_at` is bumped only when something was actually removed. -/
def Project.remove_secret (p : Project) (key : List Nat) (now : Nat) :
    Option (List Nat) × Project :=
  match lookupSecret p.secrets key with
  | some value =>
    (some value, { p with secrets := eraseSecret p.secrets key, updated_at := now })
  | none => (none, p)

/-- `Project::get_secret`: pure lookup, takes `&self`. -/
def Project.get_secret (p : Project) (key : List Nat) : Option (List Nat) :=
  lookupSecret p.secrets key

/-- `Project::list_secrets`: pure key listing, takes `&self`. -/
def Project.list_secrets (p : Project) : List (List Nat) :=
  p.secrets.map Prod.fst

/-! ## Project serialization

Modelled from the spec: `serde_json` encodes a `Project` to a
deterministic structured byte payload carrying `name`, `secrets`,
`created_at` and `updated_at`, and decodes it back; decoding inverts
encoding.  The concrete format here nibble-encodes strings (digit values
< 16) and uses the byte values 20, 21, 22 as structural separators, so it
is deterministic, executable and injective — the only properties of the
collaborator the core relies on. -/

def encSecrets : List (List Nat × List Nat) → List Nat
  | [] => []
  | (k, v) :: rest => nib k ++ 21 :: (nib v ++ 22 :: encSecrets rest)

def serialize_project (p : Project) : List Nat :=
  nib p.name ++ 20 :: (natNib p.created_at ++ 20 :: (natNib p.updated_at ++ 20 ::
    encSecrets p.secrets))

def decSecretsFuel : Nat → List Nat → Option (List (List Nat × List Nat))
  | 0, l => if l = [] then some [] else none
  | fuel + 1, l =>
    if l = [] then some []
    else
      (splitAtSep 21 l).bind fun kp =>
        (splitAtSep 22 kp.2).bind fun vp =>
          (denib kp.1).bind fun k =>
            (denib vp.1).bind fun v =>
              (decSecretsFuel fuel vp.2).bind fun tail => some ((k, v) :: tail)

def decSecrets (l : List Nat) : Option (List (List Nat × List Nat)) :=
  decSecretsFuel l.length l

def deserialize_project (l : List Nat) : Option Project :=
  (splitAtSep 20 l).bind fun np =>
    (splitAtSep 20 np.2).bind fun cp =>
      (splitAtSep 20 cp.2).bind fun up =>
        (denib np.1).bind fun name =>
          (denat cp.1).bind fun created =>
            (denat up.1).bind fun updated =>
              (decSecrets up.2).bind fun secrets =>
                some ⟨name, secrets, created, updated⟩

/-- Valid secrets lists: all keys and values are byte strings. -/
def ValidSecrets (s : List (List Nat × List Nat)) : Prop :=
  ∀ kv ∈ s, ValidBytes kv.1 ∧ ValidBytes kv.2

theorem encSecrets_lt_256 (s : List (List Nat × List Nat)) (hs : ValidSecrets s) :
    ∀ x ∈ encSecrets s, x < 256 := by
  induction s with
  | nil => intro x hx; cases hx
  | cons kv rest ih =>
    obtain ⟨k, v⟩ := kv
    have hk := (hs (k, v) (by simp)).1
    have hv := (hs (k, v) (by simp)).2
    have hrest : ValidSecrets rest := fun y hy => hs y (by simp [hy])
    intro x hx
    simp only [encSecrets, List.mem_append, List.mem_cons] at hx
    rcases hx with hx | hx
    · exact lt_trans (nib_lt_16 k hk x hx) (by omega)
    rcases hx with rfl | hx
    · omega
    rcases hx with hx | hx
    · exact lt_trans (nib_lt_16 v hv x hx) (by omega)
    rcases hx with rfl | hx
    · omega
    · exact ih hrest x hx

theorem serialize_project_valid (p : Project) (hp : ValidProject p) :
    ValidBytes (serialize_project p) := by
  intro x hx
  simp only [serialize_project, List.mem_append, List.mem_cons] at hx
  rcases hx with hx | hx
  · exact lt_trans (nib_lt_16 p.name hp.1 x hx) (by omega)
  rcases hx with rfl | hx
  · omega
  rcases hx with hx | hx
  · exact lt_trans (natNib_lt_16 p.created_at x hx) (by omega)
  rcases hx with rfl | hx
  · omega
  rcases hx with hx | hx
  · exact lt_trans (natNib_lt_16 p.updated_at x hx) (by omega)
  rcases hx with rfl | hx
  · omega
  · exact encSecrets_lt_256 p.secrets hp.2 x hx

theorem encSecrets_length (s : List (List Nat × List Nat)) :
    s.length ≤ (encSecrets s).length := by
  induction s with
  | nil => simp [encSecrets]
  | cons kv rest ih =>
    obtain ⟨k, v⟩ := kv
    simp only [encSecrets, List.length_cons, List.length_append]
    omega

theorem decSecretsFuel_encSecrets (fuel : Nat) :
    ∀ s : List (List Nat × List Nat), ValidSecrets s → s.length ≤ fuel →
      decSecretsFuel fuel (encSecrets s) = some s := by
  induction fuel with
  | zero =>
    intro s hs hlen
    have : s = [] := by
      cases s with
      | nil => rfl
      | cons a t => simp at hlen
    subst this
    rfl
  | succ f ih =>
    intro s hs hlen
    cases s with
    | nil => rfl
    | cons kv rest =>
      obtain ⟨k, v⟩ := kv
      have hk := (hs (k, v) (by simp)).1
      have hv := (hs (k, v) (by simp)).2
      have hrest : ValidSecrets rest := fun y hy => hs y (by simp [hy])
      have hlen' : rest.length ≤ f := by
        simp only [List.length_cons] at hlen; omega
      have hne : encSecrets ((k, v) :: rest) ≠ [] := by
        simp only [encSecrets]
        intro hcontra
        exact absurd (congrArg List.length hcontra) (by simp)
      have hk21 : ∀ x ∈ nib k, x ≠ 21 := fun x hx => by
        have := nib_lt_16 k hk x hx; omega
      have hv22 : ∀ x ∈ nib v, x ≠ 22 := fun x hx => by
        have := nib_lt_16 v hv x hx; omega
      show decSecretsFuel (f + 1) (encSecrets ((k, v) :: rest)) = some ((k, v) :: rest)
      rw [show decSecretsFuel (f + 1) (encSecrets ((k, v) :: rest)) =
          if encSecrets ((k, v) :: rest) = [] then some []
          else
            (splitAtSep 21 (encSecrets ((k, v) :: rest))).bind fun kp =>
              (splitAtSep 22 kp.2).bind fun vp =>
                (denib kp.1).bind fun k1 =>
                  (denib vp.1).bind fun v1 =>
                    (decSecretsFuel f vp.2).bind fun tail => some ((k1, v1) :: tail)
          from rfl]
      rw [if_neg hne]
      rw [show encSecrets ((k, v) :: rest) = nib k ++ 21 :: (nib v ++ 22 :: encSecrets rest)
          from rfl]
      rw [splitAtSep_append 21 (nib k) _ hk21, Option.some_bind]
      rw [splitAtSep_append 22 (nib v) _ hv22, Option.some_bind]
      rw [denib_nib k hk, Option.some_bind, denib_nib v hv, Option.some_bind,
        ih rest hrest hlen', Option.some_bind]

theorem decSecrets_encSecrets (s : List (List Nat × List Nat)) (hs : ValidSecrets s) :
    decSecrets (encSecrets s) = some s :=
  decSecretsFuel_encSecrets (encSecrets s).length s hs
    (Nat.le_trans (encSecrets_length s) (Nat.le_refl _))

theorem serialize_round_trip (p : Project) (hp : ValidProject p) :
    deserialize_project (serialize_project p) = some p := by
  have hname20 : ∀ x ∈ nib p.name, x ≠ 20 := fun x hx => by
    have := nib_lt_16 p.name hp.1 x hx; omega
  have hc20 : ∀ x ∈ natNib p.created_at, x ≠ 20 := fun x hx => by
    have := natNib_lt_16 p.created_at x hx; omega
  have hu20 : ∀ x ∈ natNib p.updated_at, x ≠ 20 := fun x hx => by
    have := natNib_lt_16 p.updated_at x hx; omega
  rw [show deserialize_project (serialize_project p) =
      ((splitAtSep 20 (serialize_project p)).bind fun np =>
        (splitAtSep 20 np.2).bind fun cp =>
          (splitAtSep 20 cp.2).bind fun up =>
            (denib np.1).bind fun name =>
              (denat cp.1).bind fun created =>
                (denat up.1).bind fun updated =>
                  (decSecrets up.2).bind fun secrets =>
                    some ⟨name, secrets, created, updated⟩) from rfl]
  rw [show serialize_project p =
      nib p.name ++ 20 :: (natNib p.created_at ++ 20 :: (natNib p.updated_at ++ 20 ::
        encSecrets p.secrets)) from rfl]
  rw [splitAtSep_append 20 (nib p.name) _ hname20, Option.some_bind]
  rw [splitAtSep_append 20 (natNib p.created_at) _ hc20, Option.some_bind]
  rw [splitAtSep_append 20 (natNib p.updated_at) _ hu20, Option.some_bind]
  rw [denib_nib p.name hp.1, Option.some_bind, denat_natNib p.created_at, Option.some_bind,
    denat_natNib p.updated_at, Option.some_bind, decSecrets_encSecrets p.secrets hp.2,
    Option.some_bind]

/-! ## Crypto envelope (`crypto.rs`)

The AEAD cipher (AES-256-GCM) and the KDF (PBKDF2-HMAC-SHA256) are
external library primitives.  They are modelled from the spec as ideal
primitives: the KDF is deterministic in `(password, salt)` and distinct
inputs yield independent keys (modelled as an injective pairing); the
AEAD ciphertext is an authenticated, invertible function of
`(key, nonce, plaintext)` and decryption succeeds exactly when the key
and nonce match — a wrong key or nonce fails the tag check, and failure
returns no plaintext at all.  The ciphertext bytes use the same
nibble-plus-separator embedding as the serializer (separator 255), so
they are valid bytes for base64. -/

/-- Modelled from the spec: the 32-byte key produced by
`derive_key(password, salt)` (PBKDF2-HMAC-SHA256, 100000 iterations).
Deterministic in `(password, salt)`; distinct pairs give distinct keys. -/
structure KdfKey where
  password : List Nat
  salt : List Nat
deriving DecidableEq

/-- `derive_key` from `crypto.rs`; accepts a salt of any length (the
source never checks the salt length). -/
def derive_key (password salt : List Nat) : KdfKey := ⟨password, salt⟩

/-- Modelled from the spec: ideal AEAD encryption (AES-256-GCM).  The
ciphertext (with its authentication tag) determines and is determined by
the key, the nonce and the plaintext. -/
def aeadEncrypt (key : KdfKey) (nonce pt : List Nat) : List Nat :=
  nib pt ++ 255 :: (nib key.password ++ 255 :: (nib key.salt ++ 255 :: nib nonce))

/-- Modelled from the spec: ideal AEAD decryption-plus-verification.
Returns the plaintext only when the authentication check — that the
ciphertext was produced under the same key and nonce — passes; otherwise
returns nothing. -/
def aeadDecrypt (key : KdfKey) (nonce ct : List Nat) : Option (List Nat) :=
  (splitAtSep 255 ct).bind fun ptp =>
    (splitAtSep 255 ptp.2).bind fun pwp =>
      (splitAtSep 255 pwp.2).bind fun sap =>
        (denib ptp.1).bind fun pt =>
          (denib pwp.1).bind fun pw =>
            (denib sap.1).bind fun sa =>
              (denib sap.2).bind fun no =>
                if pw = key.password ∧ sa = key.salt ∧ no = nonce then some pt else none

theorem aeadEncrypt_valid (key : KdfKey) (nonce pt : List Nat)
    (hpw : ValidBytes key.password) (hsalt : ValidBytes key.salt)
    (hnonce : ValidBytes nonce) (hpt : ValidBytes pt) :
    ValidBytes (aeadEncrypt key nonce pt) := by
  intro x hx
  simp only [aeadEncrypt, List.mem_append, List.mem_cons] at hx
  rcases hx with hx | hx
  · exact lt_trans (nib_lt_16 pt hpt x hx) (by omega)
  rcases hx with rfl | hx
  · omega
  rcases hx with hx | hx
  · exact lt_trans (nib_lt_16 key.password hpw x hx) (by omega)
  rcases hx with rfl | hx
  · omega
  rcases hx with hx | hx
  · exact lt_trans (nib_lt_16 key.salt hsalt x hx) (by omega)
  rcases hx with rfl | hx
  · omega
  · exact lt_trans (nib_lt_16 nonce hnonce x hx) (by omega)

/-- Decrypting an ideal-AEAD ciphertext under an arbitrary key: the
result is the plaintext when password, salt and nonce all match, and
nothing otherwise. -/
theorem aeadDecrypt_aeadEncrypt (key1 key2 : KdfKey) (nonce1 nonce2 pt : List Nat)
    (hpw : ValidBytes key1.password) (hsalt : ValidBytes key1.salt)
    (hnonce : ValidBytes nonce1) (hpt : ValidBytes pt) :
    aeadDecrypt key2 nonce2 (aeadEncrypt key1 nonce1 pt) =
      if key1.password = key2.password ∧ key1.salt = key2.salt ∧ nonce1 = nonce2 then
        some pt
      else none := by
  have hpt255 : ∀ x ∈ nib pt, x ≠ 255 := fun x hx => by
    have := nib_lt_16 pt hpt x hx; omega
  have hpw255 : ∀ x ∈ nib key1.password, x ≠ 255 := fun x hx => by
    have := nib_lt_16 key1.password hpw x hx; omega
  have hsa255 : ∀ x ∈ nib key1.salt, x ≠ 255 := fun x hx => by
    have := nib_lt_16 key1.salt hsalt x hx; omega
  rw [show aeadDecrypt key2 nonce2 (aeadEncrypt key1 nonce1 pt) =
      ((splitAtSep 255 (aeadEncrypt key1 nonce1 pt)).bind fun ptp =>
        (splitAtSep 255 ptp.2).bind fun pwp =>
          (splitAtSep 255 pwp.2).bind fun sap =>
            (denib ptp.1).bind fun pt1 =>
              (denib pwp.1).bind fun pw =>
                (denib sap.1).bind fun sa =>
                  (denib sap.2).bind fun no =>
                    if pw = key2.password ∧ sa = key2.salt ∧ no = nonce2 then some pt1
                    else none) from rfl]
  rw [show aeadEncrypt key1 nonce1 pt =
      nib pt ++ 255 :: (nib key1.password ++ 255 :: (nib key1.salt ++ 255 :: nib nonce1))
      from rfl]
  rw [splitAtSep_append 255 (nib pt) _ hpt255, Option.some_bind]
  rw [splitAtSep_append 255 (nib key1.password) _ hpw255, Option.some_bind]
  rw [splitAtSep_append 255 (nib key1.salt) _ hsa255, Option.some_bind]
  rw [denib_nib pt hpt, Option.some_bind, denib_nib key1.password hpw, Option.some_bind,
    denib_nib key1.salt hsalt, Option.some_bind, denib_nib nonce1 hnonce, Option.some_bind]

/-- The persisted envelope (`EncryptedProject` in `models.rs`): three
base64 text fields. -/
structure EncryptedProject where
  encrypted_data : List Char
  salt : List Char
  nonce : List Char
deriving DecidableEq

/-- The error taxonomy of the spec (section 7). -/
inductive SMError where
  | NotFound
  | AuthenticationFailed
  | MalformedEnvelope
  | CorruptData
deriving DecidableEq

/-- Result of running an operation: a value, a typed error, or a Rust
panic (used to model `GenericArray::from_slice` aborting the process). -/
inductive Outcome (α : Type) where
  | ok (value : α)
  | err (e : SMError)
  | panic
deriving DecidableEq

/-- `encrypt_project` from `crypto.rs`.  The OS RNG is an explicit input
stream `rng` of random bytes: the call consumes its first 16 bytes for
the salt and the next 12 for the nonce, exactly as the source fills
`salt` and generates the nonce from `OsRng`. -/
def encrypt_project (project : Project) (password : List Nat) (rng : List Nat) :
    EncryptedProject :=
  let salt := rng.take 16
  let nonce := (rng.drop 16).take 12
  let key := derive_key password salt
  let json_data := serialize_project project
  let ciphertext := aeadEncrypt key nonce json_data
  { encrypted_data := b64EncodeBytes ciphertext
    salt := b64EncodeBytes salt
    nonce := b64EncodeBytes nonce }

/-- `decrypt_project` from `crypto.rs`, step by step: base64-decode the
three fields (any failure is a malformed envelope); derive the key from
whatever salt was decoded — the source never checks that the salt is 16
bytes; build the nonce with `Nonce::from_slice`, which panics unless the
decoded nonce is exactly 12 bytes; AEAD-decrypt (failure is
`AuthenticationFailed`); deserialize the plaintext into a `Project`
(failure is corrupt data). -/
def decrypt_project (encrypted : EncryptedProject) (password : List Nat) :
    Outcome Project :=
  match b64DecodeBytes encrypted.salt with
  | none => .err .MalformedEnvelope
  | some salt =>
    match b64DecodeBytes encrypted.nonce with
    | none => .err .MalformedEnvelope
    | some nonce_bytes =>
      match b64DecodeBytes encrypted.encrypted_data with
      | none => .err .MalformedEnvelope
      | some ciphertext =>
        let key := derive_key password salt
        if nonce_bytes.length = 12 then
          match aeadDecrypt key nonce_bytes ciphertext with
          | none => .err .AuthenticationFailed
          | some plaintext =>
            match deserialize_project plaintext with
            | none => .err .CorruptData
            | some project => .ok project
        else .panic

/-- `validate_password` from `crypto.rs`: attempts decryption and reports
success only. -/
def validate_password (encrypted : EncryptedProject) (password : List Nat) : Bool :=
  match decrypt_project encrypted password with
  | .ok _ => true
  | _ => false

/-! ## Project store (`storage.rs`)

Paths are byte strings.  `SecretStorage` holds the storage root
directory; `get_project_path` joins it with the file name
`{name}.encrypted` using the path separator `/` (byte 47). -/

/-- Byte values of the string `encrypted` (the extension). -/
def extEncrypted : List Nat := [101, 110, 99, 114, 121, 112, 116, 101, 100]

/-- Byte values of the suffix `.encrypted`. -/
def encSuffix : List Nat := 46 :: extEncrypted

/-- `get_project_path`: `storage_dir.join(format!("{}.encrypted", project_name))`.
The project name is interpolated verbatim — nothing is rejected or
sanitized. -/
def get_project_path (storage_dir project_name : List Nat) : List Nat :=
  storage_dir ++ 47 :: (project_name ++ encSuffix)

/-- Modelled from the spec: `serde_json::to_string_pretty` of the
envelope — a deterministic, injective text encoding of its three base64
string fields; `|` never occurs inside base64 text, so it serves as the
field delimiter of the model. -/
def envelopeToJson (e : EncryptedProject) : List Char :=
  e.encrypted_data ++ '|' :: (e.salt ++ '|' :: e.nonce)

/-- Modelled from the spec: `serde_json::from_str::<EncryptedProject>`,
the inverse of `envelopeToJson`. -/
def envelopeFromJson (l : List Char) : Option EncryptedProject :=
  (splitAtSep '|' l).bind fun dp =>
    (splitAtSep '|' dp.2).bind fun sp =>
      some ⟨dp.1, sp.1, sp.2⟩

theorem envelopeFromJson_toJson (p : Project) (password rng : List Nat) :
    envelopeFromJson (envelopeToJson (encrypt_project p password rng)) =
      some (encrypt_project p password rng) := by
  have h1 : ∀ c ∈ (encrypt_project p password rng).encrypted_data, c ≠ '|' := by
    intro c hc hcontra
    subst hcontra
    exact b64EncodeBytes_ne_pipe _ hc
  have h2 : ∀ c ∈ (encrypt_project p password rng).salt, c ≠ '|' := by
    intro c hc hcontra
    subst hcontra
    exact b64EncodeBytes_ne_pipe _ hc
  rw [show envelopeToJson (encrypt_project p password rng) =
      (encrypt_project p password rng).encrypted_data ++
        '|' :: ((encrypt_project p password rng).salt ++
          '|' :: (encrypt_project p password rng).nonce) from rfl]
  rw [show ∀ l : List Char, envelopeFromJson l =
      ((splitAtSep '|' l).bind fun dp =>
        (splitAtSep '|' dp.2).bind fun sp => some ⟨dp.1, sp.1, sp.2⟩) from fun _ => rfl]
  rw [splitAtSep_append '|' _ _ h1, Option.some_bind,
    splitAtSep_append '|' _ _ h2, Option.some_bind]

/-! ### Filesystem effect trace of `save_project`

`save_project` encrypts, resolves the path, serializes the envelope and
calls `fs::write` on the final path — a single direct write, with no
temporary file and no rename.  The trace of filesystem operations the
function issues is recorded explicitly so that (non-)atomicity is
visible. -/

inductive FsOp where
  | write (path : List Nat) (data : List Char)
  | rename (src dst : List Nat)
deriving DecidableEq

/-- The filesystem operations performed by `save_project`, in order. -/
def save_project_ops (storage_dir : List Nat) (project : Project)
    (password rng : List Nat) : List FsOp :=
  let encrypted := encrypt_project project password rng
  let project_path := get_project_path storage_dir project.name
  let json_data := envelopeToJson encrypted
  [FsOp.write project_path json_data]

/-- The write-to-temporary-then-rename shape the spec mandates for an
atomic save: exactly a write to a temporary path followed by a rename of
that path onto the final path. -/
def isAtomicSaveTrace (ops : List FsOp) (finalPath : List Nat) : Bool :=
  match ops with
  | [FsOp.write tmp _, FsOp.rename src dst] =>
    tmp == src && dst == finalPath && !(tmp == finalPath)
  | _ => false

/-! ### Filesystem state model for load/delete/exists

A directory is a finite map from paths to file contents, embedded as an
association list whose keys are unique (as they are on a real
filesystem). -/

abbrev Fs := List (List Nat × List Char)

def fsLookup (fs : Fs) (p : List Nat) : Option (List Char) :=
  match fs.find? (fun kv => kv.1 == p) with
  | some kv => some kv.2
  | none => none

/-- `project_exists`: `get_project_path(name).exists()`. -/
def project_exists (fs : Fs) (storage_dir name : List Nat) : Bool :=
  (fsLookup fs (get_project_path storage_dir name)).isSome

/-- `delete_project`: errors with `NotFound` when the envelope file is
absent, otherwise removes it (`fs::remove_file`). -/
def delete_project (fs : Fs) (storage_dir name : List Nat) : Outcome Fs :=
  let path := get_project_path storage_dir name
  if (fsLookup fs path).isSome then
    .ok (fs.filter fun kv => !(kv.1 == path))
  else .err .NotFound

/-- `load_project`: errors with `NotFound` when the envelope file is
absent; otherwise reads it, parses the envelope wrapper and delegates to
`decrypt_project`. -/
def load_project (fs : Fs) (storage_dir name password : List Nat) : Outcome Project :=
  let path := get_project_path storage_dir name
  match fsLookup fs path with
  | none => .err .NotFound
  | some content =>
    match envelopeFromJson content with
    | none => .err .MalformedEnvelope
    | some encrypted => decrypt_project encrypted password

/-! ### Directory listing (`list_projects`)

`read_dir` output is modelled as a list of entries (name within the
storage root, file flag); a missing storage root is `none`.  The Rust
`Path::extension` / `Path::file_stem` rules on a file name are: split at
the last `.`; a name with no dot, or whose only dot is leading, has no
extension and is its own stem. -/

structure DirEntry where
  name : List Nat
  isFile : Bool
deriving DecidableEq

/-- Split a file name at its last dot (byte 46): returns the parts
before and after, preferring the rightmost dot. -/
def rawSplitDot : List Nat → Option (List Nat × List Nat)
  | [] => none
  | b :: rest =>
    match rawSplitDot rest with
    | some (st, ex) => some (b :: st, ex)
    | none => if b = 46 then some ([], rest) else none

/-- `Path::extension` on a plain file name. -/
def fileExtension (s : List Nat) : Option (List Nat) :=
  match rawSplitDot s with
  | some ([], _) => none
  | some (_, ex) => some ex
  | none => none

/-- `Path::file_stem` on a plain file name. -/
def fileStem (s : List Nat) : Option (List Nat) :=
  if s = [] then none
  else
    match rawSplitDot s with
    | some ([], _) => some s
    | some (st, _) => some st
    | none => some s

/-- Byte-wise lexicographic order on names, as `Vec<String>::sort` uses
(`Ord` on `String` compares byte sequences). -/
def lexLe : List Nat → List Nat → Bool
  | [], _ => true
  | _ :: _, [] => false
  | a :: as_, b :: bs =>
    if a < b then true else if b < a then false else lexLe as_ bs

def insertSorted (x : List Nat) : List (List Nat) → List (List Nat)
  | [] => [x]
  | y :: ys => if lexLe x y then x :: y :: ys else y :: insertSorted x ys

/-- The sorted permutation `projects.sort()` produces. -/
def sortNames : List (List Nat) → List (List Nat)
  | [] => []
  | x :: xs => insertSorted x (sortNames xs)

/-- `list_projects`: `none` models an absent storage root (returns the
empty vector); otherwise keep the files whose extension is `encrypted`,
take their stems, and sort. -/
def list_projects (dir : Option (List DirEntry)) : List (List Nat) :=
  match dir with
  | none => []
  | some entries =>
    let projects := entries.filterMap fun e =>
      if e.isFile && (fileExtension e.name == some extEncrypted) then fileStem e.name
      else none
    sortNames projects

/-! ### Path resolution semantics (for the traversal question)

A path is split into `/`-separated segments; resolution processes `..`
segments by popping the previous segment and ignores empty and `.`
segments.  A resolved path escapes the storage root when the resolved
root segments are not a prefix of it. -/

def resolveSegs : List (List Nat) → List (List Nat) → List (List Nat)
  | stack, [] => stack.reverse
  | stack, seg :: rest =>
    if seg = [] ∨ seg = [46] then resolveSegs stack rest
    else if seg = [46, 46] then resolveSegs (stack.drop 1) rest
    else resolveSegs (seg :: stack) rest

def resolvePath (p : List Nat) : List (List Nat) :=
  resolveSegs [] (p.splitOn 47)

def escapesRoot (root path : List Nat) : Bool :=
  !((resolvePath root).isPrefixOf (resolvePath path))

/-! ## Helper lemmas about sorting and file-name splitting -/

theorem lexLe_trans (a : List Nat) :
    ∀ b c, lexLe a b = true → lexLe b c = true → lexLe a c = true := by
  induction a with
  | nil => intro b c _ _; rfl
  | cons x as_ ih =>
    intro b c hab hbc
    cases b with
    | nil => simp [lexLe] at hab
    | cons y bs =>
      cases c with
      | nil => simp [lexLe] at hbc
      | cons z cs =>
        have hab' : x < y ∨ (x = y ∧ lexLe as_ bs = true) := by
          simp only [lexLe] at hab
          split_ifs at hab with hc1 hc2
          · exact Or.inl hc1
          · exact Or.inr ⟨by omega, hab⟩
        have hbc' : y < z ∨ (y = z ∧ lexLe bs cs = true) := by
          simp only [lexLe] at hbc
          split_ifs at hbc with hc1 hc2
          · exact Or.inl hc1
          · exact Or.inr ⟨by omega, hbc⟩
        rcases hab' with hlt1 | ⟨he1, hr1⟩ <;> rcases hbc' with hlt2 | ⟨he2, hr2⟩
        · have hxz : x < z := by omega
          simp [lexLe, hxz]
        · have hxz : x < z := by omega
          simp [lexLe, hxz]
        · have hxz : x < z := by omega
          simp [lexLe, hxz]
        · subst he1; subst he2
          simp [lexLe, ih bs cs hr1 hr2]

theorem lexLe_total (a : List Nat) : ∀ b, lexLe a b = true ∨ lexLe b a = true := by
  induction a with
  | nil => intro b; exact Or.inl rfl
  | cons x as_ ih =>
    intro b
    cases b with
    | nil => exact Or.inr rfl
    | cons y bs =>
      by_cases h1 : x < y
      · exact Or.inl (by simp [lexLe, h1])
      by_cases h2 : y < x
      · exact Or.inr (by simp [lexLe, h2])
      rcases ih bs with h | h
      · exact Or.inl (by simp [lexLe, h1, h2, h])
      · exact Or.inr (by simp [lexLe, h1, h2, h])

theorem mem_insertSorted (x y : List Nat) (l : List (List Nat)) :
    y ∈ insertSorted x l ↔ y = x ∨ y ∈ l := by
  induction l with
  | nil => simp [insertSorted]
  | cons z zs ih =>
    simp only [insertSorted]
    by_cases h : lexLe x z = true
    · rw [if_pos h]
      simp [List.mem_cons]
    · rw [if_neg h]
      simp only [List.mem_cons, ih]
      tauto

theorem pairwise_insertSorted (x : List Nat) (l : List (List Nat))
    (h : l.Pairwise fun a b => lexLe a b = true) :
    (insertSorted x l).Pairwise fun a b => lexLe a b = true := by
  induction l with
  | nil => simp [insertSorted]
  | cons z zs ih =>
    rcases List.pairwise_cons.mp h with ⟨hz, hzs⟩
    simp only [insertSorted]
    by_cases hle : lexLe x z = true
    · rw [if_pos hle]
      refine List.pairwise_cons.mpr ⟨?_, h⟩
      intro y hy
      rcases List.mem_cons.mp hy with rfl | hy
      · exact hle
      · exact lexLe_trans x z y hle (hz y hy)
    · rw [if_neg hle]
      have hzx : lexLe z x = true := (lexLe_total x z).resolve_left hle
      refine List.pairwise_cons.mpr ⟨?_, ih hzs⟩
      intro y hy
      rcases (mem_insertSorted x y zs).mp hy with rfl | hy
      · exact hzx
      · exact hz y hy

theorem sortNames_pairwise (l : List (List Nat)) :
    (sortNames l).Pairwise fun a b => lexLe a b = true := by
  induction l with
  | nil => simp [sortNames]
  | cons x xs ih => exact pairwise_insertSorted x (sortNames xs) ih

theorem mem_sortNames (y : List Nat) (l : List (List Nat)) :
    y ∈ sortNames l ↔ y ∈ l := by
  induction l with
  | nil => simp [sortNames]
  | cons x xs ih =>
    simp only [sortNames, mem_insertSorted, List.mem_cons, ih]

theorem rawSplitDot_eq (s : List Nat) :
    ∀ st ex, rawSplitDot s = some (st, ex) → s = st ++ 46 :: ex := by
  induction s with
  | nil => intro st ex h; simp [rawSplitDot] at h
  | cons b rest ih =>
    intro st ex h
    simp only [rawSplitDot] at h
    cases hr : rawSplitDot rest with
    | some p =>
      obtain ⟨st0, ex0⟩ := p
      rw [hr] at h
      have hst : st = b :: st0 ∧ ex = ex0 := by
        have := Option.some.inj h
        exact ⟨congrArg Prod.fst this.symm, congrArg Prod.snd this.symm⟩
      rw [hst.1, hst.2]
      have := ih st0 ex0 hr
      rw [List.cons_append, ← this]
    | none =>
      rw [hr] at h
      by_cases hb : b = 46
      · rw [if_pos hb] at h
        have := Option.some.inj h
        have hst : st = [] := congrArg Prod.fst this.symm
        have hex : ex = rest := congrArg Prod.snd this.symm
        rw [hst, hex, List.nil_append, hb]
      · rw [if_neg hb] at h
        cases h

theorem fileStem_fileExtension (s st ex : List Nat) (hex : fileExtension s = some ex)
    (hst : fileStem s = some st) : s = st ++ 46 :: ex := by
  unfold fileExtension at hex
  cases hr : rawSplitDot s with
  | none => rw [hr] at hex; cases hex
  | some p =>
    obtain ⟨st0, ex0⟩ := p
    rw [hr] at hex
    cases st0 with
    | nil => cases hex
    | cons a t =>
      have hex' : ex0 = ex := Option.some.inj hex
      have hsne : s ≠ [] := by
        intro hcontra
        rw [hcontra] at hr
        simp [rawSplitDot] at hr
      unfold fileStem at hst
      rw [if_neg hsne, hr] at hst
      have hst' : a :: t = st := Option.some.inj hst
      rw [← hst', ← hex']
      exact rawSplitDot_eq s (a :: t) ex0 hr

theorem fsLookup_filter_none (fs : Fs) (path : List Nat) :
    fsLookup (fs.filter fun kv => !(kv.1 == path)) path = none := by
  have h : ∀ kv ∈ fs.filter (fun kv => !(kv.1 == path)), ¬(kv.1 == path) = true := by
    intro kv hkv
    have hp := List.of_mem_filter hkv
    simp only [Bool.not_eq_true'] at hp
    simp [hp]
  unfold fsLookup
  rw [List.find?_eq_none.mpr h]

/-! ## Claims -/

/-- C1: for every project `P` and password `W`, encrypting the serialized
project with `W` via `encrypt_project` and then decrypting the resulting
envelope with the same `W` via `decrypt_project` returns exactly the
original project — the round-trip identity
`decrypt(encrypt(serialize(P), W), W) = serialize(P)` at project level.
The RNG stream must supply the 16 salt bytes and 12 nonce bytes the
source draws. -/
theorem encrypt_decrypt_roundtrip (p : Project) (password rng : List Nat)
    (hp : ValidProject p) (hpw : ValidBytes password) (hrng : ValidBytes rng)
    (hlen : 28 ≤ rng.length) :
    decrypt_project (encrypt_project p password rng) password = .ok p := by
  have hsalt : ValidBytes (rng.take 16) := fun x hx => hrng x (List.take_subset 16 rng hx)
  have hnonce : ValidBytes ((rng.drop 16).take 12) := fun x hx =>
    hrng x (List.drop_subset 16 rng (List.take_subset 12 (rng.drop 16) hx))
  have hser := serialize_project_valid p hp
  have hct : ValidBytes (aeadEncrypt (derive_key password (rng.take 16))
      ((rng.drop 16).take 12) (serialize_project p)) :=
    aeadEncrypt_valid _ _ _ hpw hsalt hnonce hser
  have hlen12 : ((rng.drop 16).take 12).length = 12 := by
    simp only [List.length_take, List.length_drop]
    omega
  simp only [encrypt_project, decrypt_project, b64_decode_encode _ hsalt,
    b64_decode_encode _ hnonce, b64_decode_encode _ hct]
  rw [if_pos hlen12, aeadDecrypt_aeadEncrypt _ _ _ _ _ hpw hsalt hnonce hser,
    if_pos ⟨rfl, rfl, rfl⟩]
  simp only [serialize_round_trip p hp]

theorem encrypt_decrypt_roundtrip_witness :
    decrypt_project
        (encrypt_project (Project.new [97] 0) [112] (List.range 28)) [112] =
      .ok (Project.new [97] 0) :=
  encrypt_decrypt_roundtrip (Project.new [97] 0) [112] (List.range 28)
    (by decide) (by decide)
    (fun b hb => lt_of_lt_of_le (List.mem_range.mp hb) (by omega)) (by decide)

/-- C2: for every project `P` and distinct passwords `W1 ≠ W2`, decrypting
an envelope produced under `W1` with `W2` fails with
`AuthenticationFailed` — the AEAD tag check rejects the mismatched key —
and the failure carries no plaintext at all. -/
theorem wrong_password_auth_failed (p : Project) (w1 w2 rng : List Nat)
    (hp : ValidProject p) (h1 : ValidBytes w1) (hrng : ValidBytes rng)
    (hne : w1 ≠ w2) (hlen : 28 ≤ rng.length) :
    decrypt_project (encrypt_project p w1 rng) w2 = .err .AuthenticationFailed := by
  have hsalt : ValidBytes (rng.take 16) := fun x hx => hrng x (List.take_subset 16 rng hx)
  have hnonce : ValidBytes ((rng.drop 16).take 12) := fun x hx =>
    hrng x (List.drop_subset 16 rng (List.take_subset 12 (rng.drop 16) hx))
  have hser := serialize_project_valid p hp
  have hct : ValidBytes (aeadEncrypt (derive_key w1 (rng.take 16))
      ((rng.drop 16).take 12) (serialize_project p)) :=
    aeadEncrypt_valid _ _ _ h1 hsalt hnonce hser
  have hlen12 : ((rng.drop 16).take 12).length = 12 := by
    simp only [List.length_take, List.length_drop]
    omega
  simp only [encrypt_project, decrypt_project, b64_decode_encode _ hsalt,
    b64_decode_encode _ hnonce, b64_decode_encode _ hct]
  rw [if_pos hlen12, aeadDecrypt_aeadEncrypt _ _ _ _ _ h1 hsalt hnonce hser,
    if_neg (fun hc => hne hc.1)]

theorem wrong_password_auth_failed_witness :
    decrypt_project
        (encrypt_project (Project.new [97] 0) [112] (List.range 28)) [113] =
      .err .AuthenticationFailed :=
  wrong_password_auth_failed (Project.new [97] 0) [112] [113] (List.range 28)
    (by decide) (by decide)
    (fun b hb => lt_of_lt_of_le (List.mem_range.mp hb) (by omega)) (by decide) (by decide)

/-- C3: claimed — `save` writes the envelope to a temporary file and
renames it into place.  The source does no such thing: the filesystem
trace of `save_project` is a single direct `fs::write` of the serialized
envelope onto the final path `resolve_path(project.name)`, with no
temporary file and no rename, so it never has the atomic
write-then-rename shape the spec mandates.  A crash mid-write can leave
a half-written envelope over the previously valid one. -/
theorem save_writes_directly (storage_dir : List Nat) (p : Project)
    (password rng : List Nat) :
    save_project_ops storage_dir p password rng =
      [FsOp.write (get_project_path storage_dir p.name)
        (envelopeToJson (encrypt_project p password rng))] ∧
    isAtomicSaveTrace (save_project_ops storage_dir p password rng)
      (get_project_path storage_dir p.name) = false :=
  ⟨rfl, rfl⟩

/-- C4: claimed — names containing path-traversal sequences are rejected
or sanitized so the resulting path never escapes the storage root.  The
source interpolates the name verbatim: for the name `../evil` the
resulting path `root/../evil.encrypted` resolves outside the storage
root. -/
theorem traversal_name_escapes_root :
    escapesRoot [114, 111, 111, 116]
        (get_project_path [114, 111, 111, 116] [46, 46, 47, 101, 118, 105, 108]) = true ∧
    resolvePath
        (get_project_path [114, 111, 111, 116] [46, 46, 47, 101, 118, 105, 108]) =
      [[101, 118, 105, 108, 46, 101, 110, 99, 114, 121, 112, 116, 101, 100]] :=
  ⟨by decide, by decide⟩

/-- C5: claimed — wrong-length salt or nonce fields yield a
`MalformedEnvelope` error and decryption never panics.  The source
checks no lengths: an envelope whose nonce decodes to 11 bytes drives
`Nonce::from_slice` into a panic, and an envelope whose salt decodes to
8 bytes sails into key derivation and AEAD decryption, surfacing as
`AuthenticationFailed` instead of `MalformedEnvelope`. -/
theorem decrypt_length_unchecked :
    decrypt_project
        ⟨b64EncodeBytes [], b64EncodeBytes (List.replicate 16 0),
          b64EncodeBytes (List.replicate 11 0)⟩ [112] = .panic ∧
    decrypt_project
        ⟨b64EncodeBytes [], b64EncodeBytes (List.replicate 8 0),
          b64EncodeBytes (List.replicate 12 0)⟩ [112] = .err .AuthenticationFailed :=
  ⟨by decide, by decide⟩

/-- C6: two calls to `encrypt_project` on the same `(P, W)` each draw
their salt and nonce afresh from the OS random stream; whenever the two
draws differ — as fresh OS randomness does — the resulting envelopes
have different salts, different nonces and different ciphertexts. -/
theorem fresh_entropy_distinct_envelopes (p : Project) (w rng1 rng2 : List Nat)
    (hp : ValidProject p) (hw : ValidBytes w)
    (h1 : ValidBytes rng1) (h2 : ValidBytes rng2)
    (hsalt : rng1.take 16 ≠ rng2.take 16)
    (hnonce : (rng1.drop 16).take 12 ≠ (rng2.drop 16).take 12) :
    (encrypt_project p w rng1).salt ≠ (encrypt_project p w rng2).salt ∧
    (encrypt_project p w rng1).nonce ≠ (encrypt_project p w rng2).nonce ∧
    (encrypt_project p w rng1).encrypted_data ≠ (encrypt_project p w rng2).encrypted_data := by
  have hs1 : ValidBytes (rng1.take 16) := fun x hx => h1 x (List.take_subset 16 rng1 hx)
  have hs2 : ValidBytes (rng2.take 16) := fun x hx => h2 x (List.take_subset 16 rng2 hx)
  have hn1 : ValidBytes ((rng1.drop 16).take 12) := fun x hx =>
    h1 x (List.drop_subset 16 rng1 (List.take_subset 12 (rng1.drop 16) hx))
  have hn2 : ValidBytes ((rng2.drop 16).take 12) := fun x hx =>
    h2 x (List.drop_subset 16 rng2 (List.take_subset 12 (rng2.drop 16) hx))
  have hser := serialize_project_valid p hp
  have hct1 : ValidBytes (aeadEncrypt (derive_key w (rng1.take 16))
      ((rng1.drop 16).take 12) (serialize_project p)) :=
    aeadEncrypt_valid _ _ _ hw hs1 hn1 hser
  have hct2 : ValidBytes (aeadEncrypt (derive_key w (rng2.take 16))
      ((rng2.drop 16).take 12) (serialize_project p)) :=
    aeadEncrypt_valid _ _ _ hw hs2 hn2 hser
  refine ⟨?_, ?_, ?_⟩
  · intro heq
    simp only [encrypt_project] at heq
    exact hsalt (b64EncodeBytes_injective _ _ hs1 hs2 heq)
  · intro heq
    simp only [encrypt_project] at heq
    exact hnonce (b64EncodeBytes_injective _ _ hn1 hn2 heq)
  · intro heq
    simp only [encrypt_project] at heq
    have hcteq := b64EncodeBytes_injective _ _ hct1 hct2 heq
    have hd1 : aeadDecrypt (derive_key w (rng1.take 16)) ((rng1.drop 16).take 12)
        (aeadEncrypt (derive_key w (rng1.take 16)) ((rng1.drop 16).take 12)
          (serialize_project p)) = some (serialize_project p) := by
      rw [aeadDecrypt_aeadEncrypt _ _ _ _ _ hw hs1 hn1 hser, if_pos ⟨rfl, rfl, rfl⟩]
    have hd2 : aeadDecrypt (derive_key w (rng1.take 16)) ((rng1.drop 16).take 12)
        (aeadEncrypt (derive_key w (rng2.take 16)) ((rng2.drop 16).take 12)
          (serialize_project p)) = none := by
      rw [aeadDecrypt_aeadEncrypt _ _ _ _ _ hw hs2 hn2 hser,
        if_neg (fun hc => hnonce hc.2.2.symm)]
    rw [hcteq, hd2] at hd1
    cases hd1

theorem fresh_entropy_distinct_envelopes_witness :
    (encrypt_project (Project.new [97] 0) [112] (List.replicate 28 0)).salt ≠
      (encrypt_project (Project.new [97] 0) [112] (List.replicate 28 1)).salt ∧
    (encrypt_project (Project.new [97] 0) [112] (List.replicate 28 0)).nonce ≠
      (encrypt_project (Project.new [97] 0) [112] (List.replicate 28 1)).nonce ∧
    (encrypt_project (Project.new [97] 0) [112] (List.replicate 28 0)).encrypted_data ≠
      (encrypt_project (Project.new [97] 0) [112] (List.replicate 28 1)).encrypted_data :=
  fresh_entropy_distinct_envelopes (Project.new [97] 0) [112]
    (List.replicate 28 0) (List.replicate 28 1)
    (by decide) (by decide) (by decide) (by decide) (by decide) (by decide)

/-- C7: `list_projects` returns the empty list, not an error, when the
storage root is absent or empty; its result is sorted in byte-wise
lexicographic order; and every returned name is the stem of a file of
the root carrying the `.encrypted` suffix — the name with that suffix
stripped. -/
theorem list_projects_spec :
    list_projects none = [] ∧
    list_projects (some []) = [] ∧
    (∀ dir, (list_projects dir).Pairwise fun a b => lexLe a b = true) ∧
    ∀ entries n, n ∈ list_projects (some entries) →
      ∃ e ∈ entries, e.isFile = true ∧ e.name = n ++ encSuffix := by
  refine ⟨rfl, rfl, ?_, ?_⟩
  · intro dir
    cases dir with
    | none => simp [list_projects]
    | some entries => exact sortNames_pairwise _
  · intro entries n hn
    simp only [list_projects] at hn
    have hn' := (mem_sortNames n _).mp hn
    rcases List.mem_filterMap.mp hn' with ⟨e, he, hcond⟩
    split at hcond
    case isTrue hc =>
      simp only [Bool.and_eq_true, beq_iff_eq] at hc
      refine ⟨e, he, hc.1, ?_⟩
      exact fileStem_fileExtension e.name n extEncrypted hc.2 hcond
    case isFalse hc => cases hcond

theorem list_projects_spec_witness :
    ∃ e ∈ [DirEntry.mk ([97] ++ encSuffix) true],
      e.isFile = true ∧ e.name = [97] ++ encSuffix :=
  list_projects_spec.2.2.2 [DirEntry.mk ([97] ++ encSuffix) true] [97] (by decide)

/-- C8: `delete_project` fails with `NotFound` when no envelope file
exists for the name and otherwise removes the file; after a successful
delete, `project_exists` is `false` and `load_project` fails with
`NotFound` for every password. -/
theorem delete_exists_load (fs fs' : Fs) (dir name pw : List Nat) :
    (project_exists fs dir name = false → delete_project fs dir name = .err .NotFound) ∧
    (delete_project fs dir name = .ok fs' →
      project_exists fs' dir name = false ∧
      load_project fs' dir name pw = .err .NotFound) := by
  constructor
  · intro habs
    unfold project_exists at habs
    simp only [delete_project, habs]
    rfl
  · intro h
    unfold delete_project at h
    by_cases hex : (fsLookup fs (get_project_path dir name)).isSome
    · rw [if_pos hex] at h
      have hfs' : fs.filter (fun kv => !(kv.1 == get_project_path dir name)) = fs' :=
        Outcome.ok.inj h
      constructor
      · unfold project_exists
        rw [← hfs', fsLookup_filter_none]
        rfl
      · simp only [load_project]
        rw [← hfs', fsLookup_filter_none]
    · rw [if_neg hex] at h
      cases h

theorem delete_exists_load_witness :
    delete_project [] [100] [110] = .err .NotFound ∧
    project_exists [] [100] [110] = false ∧
    load_project [] [100] [110] [112] = .err .NotFound :=
  ⟨(delete_exists_load [] [] [100] [110] [112]).1 (by decide),
    (delete_exists_load [(get_project_path [100] [110], ['x'])] [] [100] [110] [112]).2
      (by decide)⟩

/-- The `updated_at >= created_at` invariant of a project. -/
def Project.Inv (p : Project) : Prop := p.created_at ≤ p.updated_at

/-- C9: `Project::new` establishes `updated_at >= created_at` (both are
the same `now`); under a monotone clock every operation preserves it;
`add_secret` always bumps `updated_at` to `now`, and `remove_secret`
bumps it whenever the key was present (the only case in which the map
mutates). -/
theorem project_invariant (name key value : List Nat) (p : Project) (now : Nat)
    (hp : p.Inv) (hnow : p.updated_at ≤ now) :
    (Project.new name now).Inv ∧
    (p.add_secret key value now).Inv ∧
    (p.add_secret key value now).updated_at = now ∧
    (p.remove_secret key now).2.Inv ∧
    ((p.get_secret key).isSome = true → (p.remove_secret key now).2.updated_at = now) := by
  refine ⟨Nat.le_refl now, Nat.le_trans hp hnow, rfl, ?_, ?_⟩
  · cases h : lookupSecret p.secrets key with
    | none =>
      simp only [Project.remove_secret, h]
      exact hp
    | some v =>
      simp only [Project.remove_secret, h]
      exact Nat.le_trans hp hnow
  · intro hsome
    unfold Project.get_secret at hsome
    rcases Option.isSome_iff_exists.mp hsome with ⟨v, hv⟩
    simp only [Project.remove_secret, hv]

theorem project_invariant_witness :
    (Project.new [] 2).Inv ∧
    (((Project.new [] 0).add_secret [107] [118] 1).add_secret [107] [119] 2).Inv ∧
    (((Project.new [] 0).add_secret [107] [118] 1).add_secret [107] [119] 2).updated_at = 2 ∧
    (((Project.new [] 0).add_secret [107] [118] 1).remove_secret [107] 2).2.Inv ∧
    ((((Project.new [] 0).add_secret [107] [118] 1).get_secret [107]).isSome = true →
      (((Project.new [] 0).add_secret [107] [118] 1).remove_secret [107] 2).2.updated_at = 2) :=
  project_invariant [] [107] [119] ((Project.new [] 0).add_secret [107] [118] 1) 2
    (Nat.zero_le 1) (Nat.le_succ 1)

/-- C10: `remove_secret` returns exactly the value previously stored
under the key (`none` when absent), and when the key is absent it
returns the project entirely unchanged — same secrets, same
`updated_at`; `get_secret` and `list_secrets` take `&self` and are pure
lookups of the secrets map. -/
theorem remove_secret_frame (p : Project) (key : List Nat) (now : Nat) :
    (p.remove_secret key now).1 = p.get_secret key ∧
    (p.get_secret key = none → p.remove_secret key now = (none, p)) ∧
    p.list_secrets = p.secrets.map Prod.fst := by
  refine ⟨?_, ?_, rfl⟩
  · cases h : lookupSecret p.secrets key with
    | none =>
      simp only [Project.remove_secret, Project.get_secret, h]
    | some v =>
      simp only [Project.remove_secret, Project.get_secret, h]
  · intro hnone
    unfold Project.get_secret at hnone
    simp only [Project.remove_secret, hnone]

theorem remove_secret_frame_witness :
    (Project.new [97] 0).remove_secret [98] 5 = (none, Project.new [97] 0) :=
  (remove_secret_frame (Project.new [97] 0) [98] 5).2.1 (by decide)

end SecretsManager
